import Mathlib

/-!
Shallow embedding of the Firestore mutable object value core
(`Firestore/core/src/model/object_value.cc` and
`Firestore/core/src/model/server_timestamps.cc`).

A `google_firestore_v1_Value` is a tagged union; only the map variant
(an array of key/value entries) and the string variant matter
structurally for this core, all other variants are opaque leaves.  We
model the union as the inductive `Value`, a map's entry array as a
`List (String × Value)`, and a `MutableObjectValue`'s backing map
(`value_.map_value`) as the root entry list.  In-place pointer mutation
becomes pure functions returning the updated entry list, and
`HARD_ASSERT` / `HARD_FAIL` aborts become `Option` results (`none` =
fatal abort before any mutation is observable).
-/

namespace ObjectValue

/-- Model of the `google_firestore_v1_Value` tagged union.  The map
variant carries its ordered entry array; the string variant is needed by
the server-timestamp sentinel; the remaining variants (null, boolean,
integer, array, ...) are opaque leaves for this core. -/
inductive Value : Type where
  | nullV : Value
  | boolV : Bool → Value
  | intV : Int → Value
  | strV : String → Value
  | arrV : List Value → Value
  | mapV : List (String × Value) → Value

/-- The entry array of one map level (`google_firestore_v1_MapValue.fields`). -/
abbrev Tree := List (String × Value)

/-- True exactly on the map variant (`which_value_type == map_value_tag`). -/
def isMap : Value → Bool
  | Value.mapV _ => true
  | _ => false

/-- Model of `MutableObjectValue::FindMapEntry`: linear scan returning the
first entry whose key equals `segment`, or `none` (the C++ returns a
pointer into the array, or `nullptr`). -/
def FindMapEntry : Tree → String → Option (String × Value)
  | [], _ => none
  | e :: rest, k => if e.1 = k then some e else FindMapEntry rest k

/-- Overwriting the found entry's value through the returned pointer:
replaces the value of the first entry whose key is `k`, keeping the key
and the position. -/
def replaceFirstValue : Tree → String → Value → Tree
  | [], _, _ => []
  | e :: rest, k, v => if e.1 = k then (e.1, v) :: rest else e :: replaceFirstValue rest k v

/-- Model of `ResizeMapValue` with `target_size = count - 1` and a filter
excluding the found entry: removes the first entry whose key is `k`,
shifting the remaining entries down (order preserved). -/
def removeFirst : Tree → String → Tree
  | [], _ => []
  | e :: rest, k => if e.1 = k then rest else e :: removeFirst rest k

/-- Model of the descent loop of `MutableObjectValue::Get`: starting from
`v`, consume the path segment by segment; a non-map value or a missing
key makes the path unresolvable (`absl::nullopt`). -/
def getValue : Value → List String → Option Value
  | v, [] => some v
  | Value.mapV fields, seg :: rest =>
      match FindMapEntry fields seg with
      | some e => getValue e.2 rest
      | none => none
  | _, _ :: _ => none

/-- Model of `MutableObjectValue::Get`: an empty path returns the root
value itself (`value_`, map-typed); otherwise descend. -/
def Get (t : Tree) (path : List String) : Option Value :=
  getValue (Value.mapV t) path

/-- Model of the body of `MutableObjectValue::Set` for the non-empty path
`seg :: rest`.  For each segment before the last: an existing map-typed
entry is descended into; an existing non-map entry has its value released
and replaced in place by a freshly emptied map which is then descended
into; a missing entry is appended holding a freshly emptied map.  At the
last segment the entry's value is overwritten in place, or a new entry is
appended. -/
def setPath (t : Tree) (seg : String) : List String → Value → Tree
  | [], v =>
      match FindMapEntry t seg with
      | some _ => replaceFirstValue t seg v
      | none => t ++ [(seg, v)]
  | next :: rest, v =>
      match FindMapEntry t seg with
      | some e =>
          match e.2 with
          | Value.mapV sub => replaceFirstValue t seg (Value.mapV (setPath sub next rest v))
          | _ => replaceFirstValue t seg (Value.mapV (setPath [] next rest v))
      | none => t ++ [(seg, Value.mapV (setPath [] next rest v))]

/-- Model of `MutableObjectValue::Set`.  `HARD_ASSERT(!path.empty())` is
modelled as `none`: the call aborts before any mutation. -/
def Set (t : Tree) (path : List String) (v : Value) : Option Tree :=
  match path with
  | [] => none
  | seg :: rest => some (setPath t seg rest v)

/-- Model of the body of `MutableObjectValue::Delete` for the non-empty
path `seg :: rest`.  The descent over the segments before the last exits
early (no change) when an entry is missing or not map-typed; at the last
segment an existing entry is removed via `ResizeMapValue` (first matching
entry dropped, remaining entries compacted in order). -/
def deletePath (t : Tree) (seg : String) : List String → Tree
  | [] =>
      match FindMapEntry t seg with
      | some _ => removeFirst t seg
      | none => t
  | next :: rest =>
      match FindMapEntry t seg with
      | some e =>
          match e.2 with
          | Value.mapV sub => replaceFirstValue t seg (Value.mapV (deletePath sub next rest))
          | _ => t
      | none => t

/-- Model of `MutableObjectValue::Delete`; `HARD_ASSERT(!path.empty())`
is modelled as `none`. -/
def Delete (t : Tree) (path : List String) : Option Tree :=
  match path with
  | [] => none
  | seg :: rest => some (deletePath t seg rest)

/-- Model of `MutableObjectValue::SetAll`: iterate the mask's paths in
order; a path present in `src` (via `Get`) is `Set`, an absent one is
`Delete`d.  A fatal abort inside `Set`/`Delete` (empty path) propagates
as `none`. -/
def SetAll (mask : List (List String)) (src : Tree) : Tree → Option Tree
  | t =>
      match mask with
      | [] => some t
      | p :: rest =>
          match Get src p with
          | some v =>
              match Set t p v with
              | some t2 => SetAll rest src t2
              | none => none
          | none =>
              match Delete t p with
              | some t2 => SetAll rest src t2
              | none => none

/-- Model of `MutableObjectValue::ExtractFieldMask`: for each entry, a
map-typed value contributes its nested mask prefixed by the key — or the
key alone when the nested mask is empty (empty-map preservation) — and a
non-map value contributes the key alone.  The C++ collects the paths in
a `std::set`; we collect them in a list and state mask equality as
membership equivalence. -/
def ExtractFieldMask : Tree → List (List String)
  | [] => []
  | (k, Value.mapV sub) :: rest =>
      (if ExtractFieldMask sub = [] then [[k]]
       else (ExtractFieldMask sub).map (fun p => k :: p)) ++ ExtractFieldMask rest
  | (k, _) :: rest => [k] :: ExtractFieldMask rest

/-- Marker key of the server-timestamp sentinel (`kTypeKey`). -/
def kTypeKey : String := "__type__"

/-- Companion key holding the local write time (`kLocalWriteTimeKey`). -/
def kLocalWriteTimeKey : String := "__local_write_time__"

/-- Marker string of the sentinel (`kServerTimestampSentinel`). -/
def kServerTimestampSentinel : String := "server_timestamp"

/-- Model of `ServerTimestamps::IsServerTimestamp`: false unless
map-typed; false when the map has more than 3 entries; otherwise the scan
stops at the first entry keyed `"__type__"` and the result is whether its
value is the string `"server_timestamp"`. -/
def IsServerTimestamp : Value → Bool
  | Value.mapV fields =>
      if 3 < fields.length then false
      else
        match FindMapEntry fields kTypeKey with
        | some e =>
            match e.2 with
            | Value.strV s => s = kServerTimestampSentinel
            | _ => false
        | none => false
  | _ => false

/-- Model of `ServerTimestamps::GetLocalWriteTime`: scan the map's
entries for the first one keyed `"__local_write_time__"` and return its
value; `HARD_FAIL` when no such entry exists is modelled as `none`.  (The
C++ reads `value.map_value` without checking the union tag; on a non-map
value the read is meaningless, modelled as the failing branch.) -/
def GetLocalWriteTime : Value → Option Value
  | Value.mapV fields => (FindMapEntry fields kLocalWriteTimeKey).map (fun e => e.2)
  | _ => none

/-- Boolean path-ancestry test: `leadsTo p q` is true when `p` is an
initial segment of `q` (possibly `q` itself). -/
def leadsTo : List String → List String → Bool
  | [], _ => true
  | _ :: _, [] => false
  | a :: p, b :: q => if a = b then leadsTo p q else false

/-- Two paths are disjoint when neither is an initial segment of the
other: they address unrelated fields. -/
def PathsDisjoint (p q : List String) : Prop :=
  leadsTo p q = false ∧ leadsTo q p = false

instance pathsDisjointDecidable (p q : List String) : Decidable (PathsDisjoint p q) :=
  inferInstanceAs (Decidable (leadsTo p q = false ∧ leadsTo q p = false))

/-- Pairwise distinctness of a key list. -/
def distinctKeys : List String → Bool
  | [] => true
  | k :: rest => (decide (k ∉ rest)) && distinctKeys rest

mutual

/-- The structural invariant of the document tree: within every map node
reachable through map entries, keys are pairwise distinct.  (Arrays are
opaque leaves for this core: `Get`/`Set`/`Delete`/`ExtractFieldMask`
never descend into them.) -/
def spineWF : Value → Bool
  | Value.mapV fields => distinctKeys (fields.map Prod.fst) && spineWFFields fields
  | _ => true

/-- All entry values of one map level satisfy `spineWF`. -/
def spineWFFields : List (String × Value) → Bool
  | [] => true
  | e :: rest => spineWF e.2 && spineWFFields rest

end

theorem findMapEntry_some {t : Tree} {k : String} {e : String × Value}
    (h : FindMapEntry t k = some e) : e.1 = k ∧ e ∈ t := by
  induction t with
  | nil => simp [FindMapEntry] at h
  | cons a rest ih =>
      by_cases hk : a.1 = k
      · simp only [FindMapEntry, if_pos hk, Option.some.injEq] at h
        subst h
        exact ⟨hk, List.mem_cons_self a rest⟩
      · simp only [FindMapEntry, if_neg hk] at h
        obtain ⟨h1, h2⟩ := ih h
        exact ⟨h1, List.mem_cons_of_mem a h2⟩

theorem findMapEntry_eq_none {t : Tree} {k : String} :
    FindMapEntry t k = none ↔ ∀ e ∈ t, e.1 ≠ k := by
  induction t with
  | nil => simp [FindMapEntry]
  | cons a rest ih =>
      by_cases hk : a.1 = k
      · simp [FindMapEntry, hk]
      · simp [FindMapEntry, hk, ih]

theorem findMapEntry_of_mem_distinct {t : Tree} {k : String} {w : Value}
    (hd : distinctKeys (t.map Prod.fst) = true) (hm : (k, w) ∈ t) :
    FindMapEntry t k = some (k, w) := by
  induction t with
  | nil => simp at hm
  | cons a rest ih =>
      simp only [List.map_cons, distinctKeys, Bool.and_eq_true, decide_eq_true_eq] at hd
      rcases List.mem_cons.mp hm with h | h
      · subst h
        simp [FindMapEntry]
      · have hak : a.1 ≠ k := by
          intro hak
          exact hd.1 (hak ▸ List.mem_map_of_mem Prod.fst h)
        simp only [FindMapEntry, if_neg hak]
        exact ih hd.2 h

theorem findMapEntry_replace_self {t : Tree} {k : String} {e : String × Value}
    (h : FindMapEntry t k = some e) (v : Value) :
    FindMapEntry (replaceFirstValue t k v) k = some (k, v) := by
  induction t with
  | nil => simp [FindMapEntry] at h
  | cons a rest ih =>
      by_cases hk : a.1 = k
      · simp [FindMapEntry, replaceFirstValue, hk]
      · simp only [FindMapEntry, if_neg hk] at h
        simp only [replaceFirstValue, if_neg hk, FindMapEntry, if_neg hk]
        exact ih h

theorem findMapEntry_replace_ne {t : Tree} {k k' : String} (h : k' ≠ k) (v : Value) :
    FindMapEntry (replaceFirstValue t k v) k' = FindMapEntry t k' := by
  induction t with
  | nil => simp [replaceFirstValue]
  | cons a rest ih =>
      by_cases hk : a.1 = k
      · have : a.1 ≠ k' := by rw [hk]; exact fun hh => h hh.symm
        simp [replaceFirstValue, FindMapEntry, hk, this, Ne.symm h]
      · by_cases hk' : a.1 = k'
        · simp [replaceFirstValue, FindMapEntry, hk, hk', h]
        · simp [replaceFirstValue, FindMapEntry, hk, hk', ih]

theorem findMapEntry_append_none {t : Tree} {k : String}
    (h : FindMapEntry t k = none) (v : Value) :
    FindMapEntry (t ++ [(k, v)]) k = some (k, v) := by
  induction t with
  | nil => simp [FindMapEntry]
  | cons a rest ih =>
      by_cases hk : a.1 = k
      · simp [FindMapEntry, hk] at h
      · simp only [FindMapEntry, if_neg hk] at h
        simp only [List.cons_append, FindMapEntry, if_neg hk]
        exact ih h

theorem findMapEntry_append_ne {t : Tree} {k k' : String} (h : k' ≠ k) (x : Value) :
    FindMapEntry (t ++ [(k, x)]) k' = FindMapEntry t k' := by
  induction t with
  | nil => simp [FindMapEntry, Ne.symm h]
  | cons a rest ih =>
      by_cases hk' : a.1 = k'
      · simp [FindMapEntry, hk']
      · simp [FindMapEntry, hk', ih]

theorem findMapEntry_removeFirst_ne {t : Tree} {k k' : String} (h : k' ≠ k) :
    FindMapEntry (removeFirst t k) k' = FindMapEntry t k' := by
  induction t with
  | nil => simp [removeFirst]
  | cons a rest ih =>
      by_cases hk : a.1 = k
      · have : a.1 ≠ k' := by rw [hk]; exact fun hh => h hh.symm
        simp [removeFirst, FindMapEntry, hk, this, Ne.symm h]
      · by_cases hk' : a.1 = k'
        · simp [removeFirst, FindMapEntry, hk, hk', h]
        · simp [removeFirst, FindMapEntry, hk, hk', ih]

theorem keys_replaceFirstValue (t : Tree) (k : String) (v : Value) :
    (replaceFirstValue t k v).map Prod.fst = t.map Prod.fst := by
  induction t with
  | nil => rfl
  | cons a rest ih =>
      by_cases hk : a.1 = k
      · simp [replaceFirstValue, hk]
      · simp [replaceFirstValue, hk, ih]

theorem getValue_map_nil {q : List String} (h : q ≠ []) :
    getValue (Value.mapV []) q = none := by
  cases q with
  | nil => exact absurd rfl h
  | cons b q' => simp [getValue, FindMapEntry]

theorem getValue_not_map {v : Value} {q : List String} (hv : isMap v = false) (hq : q ≠ []) :
    getValue v q = none := by
  cases q with
  | nil => exact absurd rfl hq
  | cons b q' => cases v <;> simp_all [getValue, isMap]

theorem getValue_setPath_append :
    ∀ (rest : List String) (t : Tree) (seg : String) (v : Value) (r : List String),
      getValue (Value.mapV (setPath t seg rest v)) (seg :: (rest ++ r)) = getValue v r := by
  intro rest
  induction rest with
  | nil =>
      intro t seg v r
      simp only [setPath, List.nil_append]
      cases hf : FindMapEntry t seg with
      | some e => simp [getValue, findMapEntry_replace_self hf]
      | none => simp [getValue, findMapEntry_append_none hf]
  | cons next rest ih =>
      intro t seg v r
      simp only [setPath, List.cons_append]
      cases hf : FindMapEntry t seg with
      | some e =>
          obtain ⟨ek, ev⟩ := e
          cases ev with
          | mapV sub =>
              simp only [getValue, findMapEntry_replace_self hf]
              exact ih sub next v r
          | nullV =>
              simp only [getValue, findMapEntry_replace_self hf]
              exact ih [] next v r
          | boolV b =>
              simp only [getValue, findMapEntry_replace_self hf]
              exact ih [] next v r
          | intV n =>
              simp only [getValue, findMapEntry_replace_self hf]
              exact ih [] next v r
          | strV s =>
              simp only [getValue, findMapEntry_replace_self hf]
              exact ih [] next v r
          | arrV xs =>
              simp only [getValue, findMapEntry_replace_self hf]
              exact ih [] next v r
      | none =>
          simp only [getValue, findMapEntry_append_none hf]
          exact ih [] next v r

theorem getValue_setPath_self (rest : List String) (t : Tree) (seg : String) (v : Value) :
    getValue (Value.mapV (setPath t seg rest v)) (seg :: rest) = some v := by
  have h := getValue_setPath_append rest t seg v []
  simpa [getValue] using h

theorem leadsTo_nil (q : List String) : leadsTo [] q = true := rfl

theorem leadsTo_cons_cons (a : String) (p q : List String) :
    leadsTo (a :: p) (a :: q) = leadsTo p q := by
  simp [leadsTo]

theorem pathsDisjoint_ne_nil {p q : List String} (h : PathsDisjoint p q) :
    p ≠ [] ∧ q ≠ [] := by
  constructor
  · intro hp; rw [hp] at h; exact absurd h.1 (by simp [leadsTo_nil])
  · intro hq; rw [hq] at h; exact absurd h.2 (by simp [leadsTo_nil])

theorem pathsDisjoint_cons {a : String} {p q : List String}
    (h : PathsDisjoint (a :: p) (a :: q)) : PathsDisjoint p q := by
  obtain ⟨h1, h2⟩ := h
  rw [leadsTo_cons_cons] at h1 h2
  exact ⟨h1, h2⟩

theorem getValue_setPath_disjoint :
    ∀ (rest : List String) (seg : String) (q : List String) (t : Tree) (v : Value),
      PathsDisjoint (seg :: rest) q →
      getValue (Value.mapV (setPath t seg rest v)) q = getValue (Value.mapV t) q := by
  intro rest
  induction rest with
  | nil =>
      intro seg q t v hd
      obtain ⟨-, hq⟩ := pathsDisjoint_ne_nil hd
      cases q with
      | nil => exact absurd rfl hq
      | cons b q' =>
          by_cases hb : b = seg
          · subst hb
            have h1 := hd.1
            simp [leadsTo] at h1
          · simp only [setPath]
            cases hf : FindMapEntry t seg with
            | some e => simp [getValue, findMapEntry_replace_ne hb]
            | none => simp [getValue, findMapEntry_append_ne hb]
  | cons next rest ih =>
      intro seg q t v hd
      obtain ⟨-, hq⟩ := pathsDisjoint_ne_nil hd
      cases q with
      | nil => exact absurd rfl hq
      | cons b q' =>
          by_cases hb : b = seg
          · subst hb
            have hd' : PathsDisjoint (next :: rest) q' := pathsDisjoint_cons hd
            obtain ⟨-, hq'⟩ := pathsDisjoint_ne_nil hd'
            simp only [setPath]
            cases hf : FindMapEntry t b with
            | some e =>
                obtain ⟨ek, ev⟩ := e
                cases ev with
                | mapV sub =>
                    simp only [getValue, findMapEntry_replace_self hf, hf]
                    rw [ih next q' sub v hd']
                | nullV =>
                    simp only [getValue, findMapEntry_replace_self hf, hf]
                    rw [ih next q' [] v hd', getValue_map_nil hq',
                      getValue_not_map (by simp [isMap]) hq']
                | boolV bb =>
                    simp only [getValue, findMapEntry_replace_self hf, hf]
                    rw [ih next q' [] v hd', getValue_map_nil hq',
                      getValue_not_map (by simp [isMap]) hq']
                | intV n =>
                    simp only [getValue, findMapEntry_replace_self hf, hf]
                    rw [ih next q' [] v hd', getValue_map_nil hq',
                      getValue_not_map (by simp [isMap]) hq']
                | strV s =>
                    simp only [getValue, findMapEntry_replace_self hf, hf]
                    rw [ih next q' [] v hd', getValue_map_nil hq',
                      getValue_not_map (by simp [isMap]) hq']
                | arrV xs =>
                    simp only [getValue, findMapEntry_replace_self hf, hf]
                    rw [ih next q' [] v hd', getValue_map_nil hq',
                      getValue_not_map (by simp [isMap]) hq']
            | none =>
                simp only [getValue, findMapEntry_append_none hf, hf]
                rw [ih next q' [] v hd', getValue_map_nil hq']
          · simp only [setPath]
            cases hf : FindMapEntry t seg with
            | some e =>
                obtain ⟨ek, ev⟩ := e
                cases ev with
                | mapV sub => simp [getValue, findMapEntry_replace_ne hb]
                | nullV => simp [getValue, findMapEntry_replace_ne hb]
                | boolV bb => simp [getValue, findMapEntry_replace_ne hb]
                | intV n => simp [getValue, findMapEntry_replace_ne hb]
                | strV s => simp [getValue, findMapEntry_replace_ne hb]
                | arrV xs => simp [getValue, findMapEntry_replace_ne hb]
            | none => simp [getValue, findMapEntry_append_ne hb]

theorem replaceFirstValue_ne_nil {t : Tree} (h : t ≠ []) (k : String) (v : Value) :
    replaceFirstValue t k v ≠ [] := by
  cases t with
  | nil => exact absurd rfl h
  | cons a rest => by_cases ha : a.1 = k <;> simp [replaceFirstValue, ha]

theorem findMapEntry_ne_nil {t : Tree} {k : String} {e : String × Value}
    (h : FindMapEntry t k = some e) : t ≠ [] := by
  cases t with
  | nil => simp [FindMapEntry] at h
  | cons a rest => simp

theorem setPath_ne_nil (rest : List String) (t : Tree) (seg : String) (v : Value) :
    setPath t seg rest v ≠ [] := by
  cases rest with
  | nil =>
      simp only [setPath]
      cases hf : FindMapEntry t seg with
      | some e => exact replaceFirstValue_ne_nil (findMapEntry_ne_nil hf) seg v
      | none => simp
  | cons next rest2 =>
      simp only [setPath]
      cases hf : FindMapEntry t seg with
      | some e =>
          obtain ⟨ek, ev⟩ := e
          cases ev <;> exact replaceFirstValue_ne_nil (findMapEntry_ne_nil hf) seg _
      | none => simp

theorem getValue_setPath_ancestor :
    ∀ (q : List String) (r rest : List String) (seg : String) (t : Tree) (v : Value),
      seg :: rest = q ++ r → q ≠ [] → r ≠ [] →
      ∃ sub, getValue (Value.mapV (setPath t seg rest v)) q = some (Value.mapV sub) ∧
        sub ≠ [] := by
  intro q
  induction q with
  | nil => intro r rest seg t v _ hq _; exact absurd rfl hq
  | cons a q2 ih =>
      intro r rest seg t v heq _ hr
      obtain ⟨ha, hrest⟩ := List.cons.inj heq
      subst ha
      cases q2 with
      | nil =>
          subst hrest
          cases rest with
          | nil => exact absurd rfl hr
          | cons next rest2 =>
              simp only [setPath]
              cases hf : FindMapEntry t seg with
              | some e =>
                  obtain ⟨ek, ev⟩ := e
                  cases ev with
                  | mapV sub =>
                      refine ⟨setPath sub next rest2 v, ?_, setPath_ne_nil _ _ _ _⟩
                      simp [getValue, findMapEntry_replace_self hf]
                  | nullV =>
                      refine ⟨setPath [] next rest2 v, ?_, setPath_ne_nil _ _ _ _⟩
                      simp [getValue, findMapEntry_replace_self hf]
                  | boolV b =>
                      refine ⟨setPath [] next rest2 v, ?_, setPath_ne_nil _ _ _ _⟩
                      simp [getValue, findMapEntry_replace_self hf]
                  | intV n =>
                      refine ⟨setPath [] next rest2 v, ?_, setPath_ne_nil _ _ _ _⟩
                      simp [getValue, findMapEntry_replace_self hf]
                  | strV s =>
                      refine ⟨setPath [] next rest2 v, ?_, setPath_ne_nil _ _ _ _⟩
                      simp [getValue, findMapEntry_replace_self hf]
                  | arrV xs =>
                      refine ⟨setPath [] next rest2 v, ?_, setPath_ne_nil _ _ _ _⟩
                      simp [getValue, findMapEntry_replace_self hf]
              | none =>
                  refine ⟨setPath [] next rest2 v, ?_, setPath_ne_nil _ _ _ _⟩
                  simp [getValue, findMapEntry_append_none hf]
      | cons c q3 =>
          subst hrest
          simp only [setPath]
          cases hf : FindMapEntry t seg with
          | some e =>
              obtain ⟨ek, ev⟩ := e
              cases ev with
              | mapV sub =>
                  obtain ⟨sub2, h1, h2⟩ := ih r (q3 ++ r) c sub v rfl (by simp) hr
                  refine ⟨sub2, ?_, h2⟩
                  simp only [getValue, findMapEntry_replace_self hf]
                  exact h1
              | nullV =>
                  obtain ⟨sub2, h1, h2⟩ := ih r (q3 ++ r) c [] v rfl (by simp) hr
                  refine ⟨sub2, ?_, h2⟩
                  simp only [getValue, findMapEntry_replace_self hf]
                  exact h1
              | boolV b =>
                  obtain ⟨sub2, h1, h2⟩ := ih r (q3 ++ r) c [] v rfl (by simp) hr
                  refine ⟨sub2, ?_, h2⟩
                  simp only [getValue, findMapEntry_replace_self hf]
                  exact h1
              | intV n =>
                  obtain ⟨sub2, h1, h2⟩ := ih r (q3 ++ r) c [] v rfl (by simp) hr
                  refine ⟨sub2, ?_, h2⟩
                  simp only [getValue, findMapEntry_replace_self hf]
                  exact h1
              | strV s =>
                  obtain ⟨sub2, h1, h2⟩ := ih r (q3 ++ r) c [] v rfl (by simp) hr
                  refine ⟨sub2, ?_, h2⟩
                  simp only [getValue, findMapEntry_replace_self hf]
                  exact h1
              | arrV xs =>
                  obtain ⟨sub2, h1, h2⟩ := ih r (q3 ++ r) c [] v rfl (by simp) hr
                  refine ⟨sub2, ?_, h2⟩
                  simp only [getValue, findMapEntry_replace_self hf]
                  exact h1
          | none =>
              obtain ⟨sub2, h1, h2⟩ := ih r (q3 ++ r) c [] v rfl (by simp) hr
              refine ⟨sub2, ?_, h2⟩
              simp only [getValue, findMapEntry_append_none hf]
              exact h1

theorem getValue_deletePath_disjoint :
    ∀ (rest : List String) (seg : String) (q : List String) (t : Tree),
      PathsDisjoint (seg :: rest) q →
      getValue (Value.mapV (deletePath t seg rest)) q = getValue (Value.mapV t) q := by
  intro rest
  induction rest with
  | nil =>
      intro seg q t hd
      obtain ⟨-, hq⟩ := pathsDisjoint_ne_nil hd
      cases q with
      | nil => exact absurd rfl hq
      | cons b q' =>
          by_cases hb : b = seg
          · subst hb
            have h1 := hd.1
            simp [leadsTo] at h1
          · simp only [deletePath]
            cases hf : FindMapEntry t seg with
            | some e => simp [getValue, findMapEntry_removeFirst_ne hb]
            | none => simp
  | cons next rest ih =>
      intro seg q t hd
      obtain ⟨-, hq⟩ := pathsDisjoint_ne_nil hd
      cases q with
      | nil => exact absurd rfl hq
      | cons b q' =>
          by_cases hb : b = seg
          · subst hb
            have hd' : PathsDisjoint (next :: rest) q' := pathsDisjoint_cons hd
            simp only [deletePath]
            cases hf : FindMapEntry t b with
            | some e =>
                obtain ⟨ek, ev⟩ := e
                cases ev with
                | mapV sub =>
                    simp only [getValue, findMapEntry_replace_self hf, hf]
                    rw [ih next q' sub hd']
                | nullV => rfl
                | boolV bb => rfl
                | intV n => rfl
                | strV s => rfl
                | arrV xs => rfl
            | none => rfl
          · simp only [deletePath]
            cases hf : FindMapEntry t seg with
            | some e =>
                obtain ⟨ek, ev⟩ := e
                cases ev with
                | mapV sub => simp [getValue, findMapEntry_replace_ne hb]
                | nullV => rfl
                | boolV bb => rfl
                | intV n => rfl
                | strV s => rfl
                | arrV xs => rfl
            | none => rfl

theorem getValue_deletePath_parent :
    ∀ (q2 : List String) (a lastSeg : String) (t : Tree),
      (getValue (Value.mapV t) ((a :: q2) ++ [lastSeg])).isSome = true →
      ∃ sub, getValue (Value.mapV t) (a :: q2) = some (Value.mapV sub) ∧
        getValue (Value.mapV (deletePath t a (q2 ++ [lastSeg]))) (a :: q2) =
          some (Value.mapV (removeFirst sub lastSeg)) := by
  intro q2
  induction q2 with
  | nil =>
      intro a lastSeg t hsome
      simp only [List.nil_append, List.cons_append] at hsome ⊢
      cases hf : FindMapEntry t a with
      | some e =>
          obtain ⟨ek, ev⟩ := e
          cases ev with
          | mapV sub =>
              refine ⟨sub, by simp [getValue, hf], ?_⟩
              rw [show getValue (Value.mapV t) [a, lastSeg] =
                    getValue (Value.mapV sub) [lastSeg] by simp [getValue, hf]] at hsome
              simp only [getValue] at hsome
              cases hf2 : FindMapEntry sub lastSeg with
              | some e2 =>
                  simp only [deletePath, hf, hf2]
                  simp [getValue, findMapEntry_replace_self hf]
              | none => rw [hf2] at hsome; simp at hsome
          | nullV =>
              rw [show getValue (Value.mapV t) [a, lastSeg] = none by
                simp [getValue, hf]] at hsome
              simp at hsome
          | boolV b =>
              rw [show getValue (Value.mapV t) [a, lastSeg] = none by
                simp [getValue, hf]] at hsome
              simp at hsome
          | intV n =>
              rw [show getValue (Value.mapV t) [a, lastSeg] = none by
                simp [getValue, hf]] at hsome
              simp at hsome
          | strV s =>
              rw [show getValue (Value.mapV t) [a, lastSeg] = none by
                simp [getValue, hf]] at hsome
              simp at hsome
          | arrV xs =>
              rw [show getValue (Value.mapV t) [a, lastSeg] = none by
                simp [getValue, hf]] at hsome
              simp at hsome
      | none =>
          rw [show getValue (Value.mapV t) [a, lastSeg] = none by
            simp [getValue, hf]] at hsome
          simp at hsome
  | cons c q3 ih =>
      intro a lastSeg t hsome
      simp only [List.cons_append] at hsome ⊢
      cases hf : FindMapEntry t a with
      | some e =>
          obtain ⟨ek, ev⟩ := e
          cases ev with
          | mapV sub =>
              rw [show getValue (Value.mapV t) (a :: c :: (q3 ++ [lastSeg])) =
                    getValue (Value.mapV sub) (c :: (q3 ++ [lastSeg])) by
                  simp [getValue, hf]] at hsome
              obtain ⟨sub2, h1, h2⟩ := ih c lastSeg sub hsome
              refine ⟨sub2, ?_, ?_⟩
              · rw [show getValue (Value.mapV t) (a :: c :: q3) =
                      getValue (Value.mapV sub) (c :: q3) by simp [getValue, hf]]
                exact h1
              · simp only [deletePath, hf]
                simp only [getValue, findMapEntry_replace_self hf]
                exact h2
          | nullV =>
              rw [show getValue (Value.mapV t) (a :: c :: (q3 ++ [lastSeg])) = none by
                simp [getValue, hf, FindMapEntry]] at hsome
              simp at hsome
          | boolV b =>
              rw [show getValue (Value.mapV t) (a :: c :: (q3 ++ [lastSeg])) = none by
                simp [getValue, hf, FindMapEntry]] at hsome
              simp at hsome
          | intV n =>
              rw [show getValue (Value.mapV t) (a :: c :: (q3 ++ [lastSeg])) = none by
                simp [getValue, hf, FindMapEntry]] at hsome
              simp at hsome
          | strV s =>
              rw [show getValue (Value.mapV t) (a :: c :: (q3 ++ [lastSeg])) = none by
                simp [getValue, hf, FindMapEntry]] at hsome
              simp at hsome
          | arrV xs =>
              rw [show getValue (Value.mapV t) (a :: c :: (q3 ++ [lastSeg])) = none by
                simp [getValue, hf, FindMapEntry]] at hsome
              simp at hsome
      | none =>
          rw [show getValue (Value.mapV t) (a :: c :: (q3 ++ [lastSeg])) = none by
            simp [getValue, hf]] at hsome
          simp at hsome

theorem spineWF_map_nil : spineWF (Value.mapV []) = true := by
  simp [spineWF, spineWFFields, distinctKeys]

theorem spineWF_mapV {fields : Tree} :
    spineWF (Value.mapV fields) = true ↔
      distinctKeys (fields.map Prod.fst) = true ∧ spineWFFields fields = true := by
  simp [spineWF]

theorem spineWF_not_map {v : Value} (h : isMap v = false) : spineWF v = true := by
  cases v <;> simp_all [spineWF, isMap]

theorem spineWFFields_cons {e : String × Value} {rest : Tree} :
    spineWFFields (e :: rest) = true ↔ spineWF e.2 = true ∧ spineWFFields rest = true := by
  simp [spineWFFields]

theorem spineWFFields_mem {l : Tree} {e : String × Value}
    (h : spineWFFields l = true) (hm : e ∈ l) : spineWF e.2 = true := by
  induction l with
  | nil => simp at hm
  | cons a rest ih =>
      rw [spineWFFields_cons] at h
      rcases List.mem_cons.mp hm with h1 | h1
      · subst h1; exact h.1
      · exact ih h.2 h1

theorem spineWFFields_replace {l : Tree} {k : String} {v : Value}
    (h : spineWFFields l = true) (hv : spineWF v = true) :
    spineWFFields (replaceFirstValue l k v) = true := by
  induction l with
  | nil => simpa [replaceFirstValue] using h
  | cons a rest ih =>
      rw [spineWFFields_cons] at h
      by_cases ha : a.1 = k
      · simp only [replaceFirstValue, if_pos ha]
        exact spineWFFields_cons.mpr ⟨hv, h.2⟩
      · simp only [replaceFirstValue, if_neg ha]
        exact spineWFFields_cons.mpr ⟨h.1, ih h.2⟩

theorem mem_keys_iff {l : Tree} {k : String} :
    k ∈ l.map Prod.fst ↔ ∃ e ∈ l, e.1 = k := by
  simp [List.mem_map]

theorem distinctKeys_append {keys : List String} {k : String}
    (h : distinctKeys keys = true) (hk : k ∉ keys) :
    distinctKeys (keys ++ [k]) = true := by
  induction keys with
  | nil => simp [distinctKeys]
  | cons a rest ih =>
      simp only [distinctKeys, Bool.and_eq_true, decide_eq_true_eq] at h
      simp only [List.mem_cons, not_or] at hk
      simp only [List.cons_append, distinctKeys, Bool.and_eq_true, decide_eq_true_eq]
      refine ⟨?_, ih h.2 hk.2⟩
      intro hmem
      rcases List.mem_append.mp hmem with h1 | h1
      · exact h.1 h1
      · exact hk.1 (List.mem_singleton.mp h1).symm

theorem spineWFFields_append {l : Tree} {k : String} {v : Value}
    (h : spineWFFields l = true) (hv : spineWF v = true) :
    spineWFFields (l ++ [(k, v)]) = true := by
  induction l with
  | nil => simpa [spineWFFields] using hv
  | cons a rest ih =>
      rw [spineWFFields_cons] at h
      simp only [List.cons_append]
      exact spineWFFields_cons.mpr ⟨h.1, ih h.2⟩

theorem keys_removeFirst_subset {l : Tree} {k x : String}
    (h : x ∈ (removeFirst l k).map Prod.fst) : x ∈ l.map Prod.fst := by
  induction l with
  | nil => simp [removeFirst] at h
  | cons a rest ih =>
      by_cases ha : a.1 = k
      · simp only [removeFirst, if_pos ha] at h
        simp [h]
      · simp only [removeFirst, if_neg ha, List.map_cons, List.mem_cons] at h
        rcases h with h | h
        · simp [h]
        · simp [ih h]

theorem distinctKeys_removeFirst {l : Tree} {k : String}
    (h : distinctKeys (l.map Prod.fst) = true) :
    distinctKeys ((removeFirst l k).map Prod.fst) = true := by
  induction l with
  | nil => simpa [removeFirst] using h
  | cons a rest ih =>
      simp only [List.map_cons, distinctKeys, Bool.and_eq_true, decide_eq_true_eq] at h
      by_cases ha : a.1 = k
      · simpa [removeFirst, ha] using h.2
      · simp only [removeFirst, if_neg ha, List.map_cons, distinctKeys,
          Bool.and_eq_true, decide_eq_true_eq]
        exact ⟨fun hm => h.1 (keys_removeFirst_subset hm), ih h.2⟩

theorem spineWFFields_removeFirst {l : Tree} {k : String}
    (h : spineWFFields l = true) : spineWFFields (removeFirst l k) = true := by
  induction l with
  | nil => simpa [removeFirst] using h
  | cons a rest ih =>
      rw [spineWFFields_cons] at h
      by_cases ha : a.1 = k
      · simpa [removeFirst, ha] using h.2
      · simp only [removeFirst, if_neg ha]
        exact spineWFFields_cons.mpr ⟨h.1, ih h.2⟩

theorem spineWF_setPath :
    ∀ (rest : List String) (t : Tree) (seg : String) (v : Value),
      spineWF (Value.mapV t) = true → spineWF v = true →
      spineWF (Value.mapV (setPath t seg rest v)) = true := by
  intro rest
  induction rest with
  | nil =>
      intro t seg v ht hv
      obtain ⟨hd, hw⟩ := spineWF_mapV.mp ht
      simp only [setPath]
      cases hf : FindMapEntry t seg with
      | some e =>
          refine spineWF_mapV.mpr ⟨?_, spineWFFields_replace hw hv⟩
          rw [keys_replaceFirstValue]
          exact hd
      | none =>
          refine spineWF_mapV.mpr ⟨?_, spineWFFields_append hw hv⟩
          have hk : seg ∉ t.map Prod.fst := by
            rw [mem_keys_iff]
            rintro ⟨e, hm, he⟩
            exact (findMapEntry_eq_none.mp hf e hm) he
          simpa using distinctKeys_append hd hk
  | cons next rest ih =>
      intro t seg v ht hv
      obtain ⟨hd, hw⟩ := spineWF_mapV.mp ht
      simp only [setPath]
      cases hf : FindMapEntry t seg with
      | some e =>
          have hsub : spineWF e.2 = true := spineWFFields_mem hw (findMapEntry_some hf).2
          obtain ⟨ek, ev⟩ := e
          cases ev with
          | mapV sub =>
              have : spineWF (Value.mapV (setPath sub next rest v)) = true :=
                ih sub next v hsub hv
              refine spineWF_mapV.mpr ⟨?_, spineWFFields_replace hw this⟩
              rw [keys_replaceFirstValue]; exact hd
          | nullV =>
              have : spineWF (Value.mapV (setPath [] next rest v)) = true :=
                ih [] next v spineWF_map_nil hv
              refine spineWF_mapV.mpr ⟨?_, spineWFFields_replace hw this⟩
              rw [keys_replaceFirstValue]; exact hd
          | boolV b =>
              have : spineWF (Value.mapV (setPath [] next rest v)) = true :=
                ih [] next v spineWF_map_nil hv
              refine spineWF_mapV.mpr ⟨?_, spineWFFields_replace hw this⟩
              rw [keys_replaceFirstValue]; exact hd
          | intV n =>
              have : spineWF (Value.mapV (setPath [] next rest v)) = true :=
                ih [] next v spineWF_map_nil hv
              refine spineWF_mapV.mpr ⟨?_, spineWFFields_replace hw this⟩
              rw [keys_replaceFirstValue]; exact hd
          | strV s =>
              have : spineWF (Value.mapV (setPath [] next rest v)) = true :=
                ih [] next v spineWF_map_nil hv
              refine spineWF_mapV.mpr ⟨?_, spineWFFields_replace hw this⟩
              rw [keys_replaceFirstValue]; exact hd
          | arrV xs =>
              have : spineWF (Value.mapV (setPath [] next rest v)) = true :=
                ih [] next v spineWF_map_nil hv
              refine spineWF_mapV.mpr ⟨?_, spineWFFields_replace hw this⟩
              rw [keys_replaceFirstValue]; exact hd
      | none =>
          have : spineWF (Value.mapV (setPath [] next rest v)) = true :=
            ih [] next v spineWF_map_nil hv
          refine spineWF_mapV.mpr ⟨?_, spineWFFields_append hw this⟩
          have hk : seg ∉ t.map Prod.fst := by
            rw [mem_keys_iff]
            rintro ⟨e, hm, he⟩
            exact (findMapEntry_eq_none.mp hf e hm) he
          simpa using distinctKeys_append hd hk

theorem spineWF_deletePath :
    ∀ (rest : List String) (t : Tree) (seg : String),
      spineWF (Value.mapV t) = true →
      spineWF (Value.mapV (deletePath t seg rest)) = true := by
  intro rest
  induction rest with
  | nil =>
      intro t seg ht
      obtain ⟨hd, hw⟩ := spineWF_mapV.mp ht
      simp only [deletePath]
      cases hf : FindMapEntry t seg with
      | some e =>
          exact spineWF_mapV.mpr ⟨distinctKeys_removeFirst hd, spineWFFields_removeFirst hw⟩
      | none => exact ht
  | cons next rest ih =>
      intro t seg ht
      obtain ⟨hd, hw⟩ := spineWF_mapV.mp ht
      simp only [deletePath]
      cases hf : FindMapEntry t seg with
      | some e =>
          have hsub : spineWF e.2 = true := spineWFFields_mem hw (findMapEntry_some hf).2
          obtain ⟨ek, ev⟩ := e
          cases ev with
          | mapV sub =>
              have : spineWF (Value.mapV (deletePath sub next rest)) = true :=
                ih sub next hsub
              refine spineWF_mapV.mpr ⟨?_, spineWFFields_replace hw this⟩
              rw [keys_replaceFirstValue]; exact hd
          | nullV => exact ht
          | boolV b => exact ht
          | intV n => exact ht
          | strV s => exact ht
          | arrV xs => exact ht
      | none => exact ht

theorem spineWF_getValue :
    ∀ (path : List String) (v : Value), spineWF v = true →
      ∀ w, getValue v path = some w → spineWF w = true := by
  intro path
  induction path with
  | nil =>
      intro v hv w hw
      simp only [getValue, Option.some.injEq] at hw
      subst hw; exact hv
  | cons seg rest ih =>
      intro v hv w hw
      cases v with
      | mapV fields =>
          simp only [getValue] at hw
          cases hf : FindMapEntry fields seg with
          | some e =>
              rw [hf] at hw
              have he : spineWF e.2 = true :=
                spineWFFields_mem (spineWF_mapV.mp hv).2 (findMapEntry_some hf).2
              exact ih e.2 he w hw
          | none => rw [hf] at hw; simp at hw
      | nullV => simp [getValue] at hw
      | boolV b => simp [getValue] at hw
      | intV n => simp [getValue] at hw
      | strV s => simp [getValue] at hw
      | arrV xs => simp [getValue] at hw

/-- A value whose field contributes its own path to the field mask: any
non-map value, or a map with zero entries (empty-map preservation). -/
def maskLeaf : Value → Bool
  | Value.mapV fields => fields.isEmpty
  | _ => true

theorem maskLeaf_not_map {v : Value} (h : isMap v = false) : maskLeaf v = true := by
  cases v <;> simp_all [maskLeaf, isMap]

theorem extract_ne_nil_mem : ∀ (fields : Tree) (q : List String),
    q ∈ ExtractFieldMask fields → q ≠ [] := by
  intro fields
  induction fields with
  | nil => intro q hq; simp [ExtractFieldMask] at hq
  | cons a rest ih =>
      obtain ⟨k, v⟩ := a
      intro q hq
      cases v with
      | mapV sub =>
          simp only [ExtractFieldMask] at hq
          rcases List.mem_append.mp hq with h | h
          · by_cases hz : ExtractFieldMask sub = []
            · rw [if_pos hz] at h
              simp only [List.mem_singleton] at h
              subst h; simp
            · rw [if_neg hz] at h
              obtain ⟨p, -, hp⟩ := List.mem_map.mp h
              rw [← hp]; simp
          · exact ih q h
      | nullV =>
          simp only [ExtractFieldMask, List.mem_cons] at hq
          rcases hq with h | h
          · subst h; simp
          · exact ih q h
      | boolV b =>
          simp only [ExtractFieldMask, List.mem_cons] at hq
          rcases hq with h | h
          · subst h; simp
          · exact ih q h
      | intV n =>
          simp only [ExtractFieldMask, List.mem_cons] at hq
          rcases hq with h | h
          · subst h; simp
          · exact ih q h
      | strV s =>
          simp only [ExtractFieldMask, List.mem_cons] at hq
          rcases hq with h | h
          · subst h; simp
          · exact ih q h
      | arrV xs =>
          simp only [ExtractFieldMask, List.mem_cons] at hq
          rcases hq with h | h
          · subst h; simp
          · exact ih q h

theorem extract_head_mem_keys : ∀ (fields : Tree) (q : List String),
    q ∈ ExtractFieldMask fields →
    ∃ k q2, q = k :: q2 ∧ k ∈ fields.map Prod.fst := by
  intro fields
  induction fields with
  | nil => intro q hq; simp [ExtractFieldMask] at hq
  | cons a rest ih =>
      obtain ⟨k, v⟩ := a
      intro q hq
      cases v with
      | mapV sub =>
          simp only [ExtractFieldMask] at hq
          rcases List.mem_append.mp hq with h | h
          · by_cases hz : ExtractFieldMask sub = []
            · rw [if_pos hz] at h
              simp only [List.mem_singleton] at h
              exact ⟨k, [], h, by simp⟩
            · rw [if_neg hz] at h
              obtain ⟨p, -, hp⟩ := List.mem_map.mp h
              exact ⟨k, p, hp.symm, by simp⟩
          · obtain ⟨k2, q2, hq2, hk2⟩ := ih q h
            exact ⟨k2, q2, hq2, by simp [hk2]⟩
      | nullV =>
          simp only [ExtractFieldMask, List.mem_cons] at hq
          rcases hq with h | h
          · exact ⟨k, [], h, by simp⟩
          · obtain ⟨k2, q2, hq2, hk2⟩ := ih q h
            exact ⟨k2, q2, hq2, by simp [hk2]⟩
      | boolV b =>
          simp only [ExtractFieldMask, List.mem_cons] at hq
          rcases hq with h | h
          · exact ⟨k, [], h, by simp⟩
          · obtain ⟨k2, q2, hq2, hk2⟩ := ih q h
            exact ⟨k2, q2, hq2, by simp [hk2]⟩
      | intV n =>
          simp only [ExtractFieldMask, List.mem_cons] at hq
          rcases hq with h | h
          · exact ⟨k, [], h, by simp⟩
          · obtain ⟨k2, q2, hq2, hk2⟩ := ih q h
            exact ⟨k2, q2, hq2, by simp [hk2]⟩
      | strV s =>
          simp only [ExtractFieldMask, List.mem_cons] at hq
          rcases hq with h | h
          · exact ⟨k, [], h, by simp⟩
          · obtain ⟨k2, q2, hq2, hk2⟩ := ih q h
            exact ⟨k2, q2, hq2, by simp [hk2]⟩
      | arrV xs =>
          simp only [ExtractFieldMask, List.mem_cons] at hq
          rcases hq with h | h
          · exact ⟨k, [], h, by simp⟩
          · obtain ⟨k2, q2, hq2, hk2⟩ := ih q h
            exact ⟨k2, q2, hq2, by simp [hk2]⟩

theorem extract_eq_nil_iff : ∀ (fields : Tree),
    ExtractFieldMask fields = [] ↔ fields = [] := by
  intro fields
  cases fields with
  | nil => simp [ExtractFieldMask]
  | cons a rest =>
      obtain ⟨k, v⟩ := a
      simp only [List.cons_ne_nil, iff_false]
      intro h
      cases v with
      | mapV sub =>
          simp only [ExtractFieldMask, List.append_eq_nil] at h
          by_cases hz : ExtractFieldMask sub = []
          · rw [if_pos hz] at h; simp at h
          · rw [if_neg hz] at h
            exact hz (List.map_eq_nil_iff.mp h.1)
      | nullV => simp [ExtractFieldMask] at h
      | boolV b => simp [ExtractFieldMask] at h
      | intV n => simp [ExtractFieldMask] at h
      | strV s => simp [ExtractFieldMask] at h
      | arrV xs => simp [ExtractFieldMask] at h

theorem mem_extract_iff_aux :
    ∀ (n : Nat) (fields : Tree), sizeOf fields ≤ n →
      spineWF (Value.mapV fields) = true →
      ∀ q, q ∈ ExtractFieldMask fields ↔
        (q ≠ [] ∧ ∃ v, getValue (Value.mapV fields) q = some v ∧ maskLeaf v = true) := by
  intro n
  induction n with
  | zero =>
      intro fields hsz
      exfalso
      cases fields <;> simp at hsz
  | succ n ih =>
      intro fields hsz hwf q
      cases fields with
      | nil =>
          apply iff_of_false
          · intro hq; simp [ExtractFieldMask] at hq
          · rintro ⟨hne, w, hw, -⟩
            cases q with
            | nil => exact hne rfl
            | cons b q' => simp [getValue, FindMapEntry] at hw
      | cons a rest =>
          obtain ⟨k, v⟩ := a
          obtain ⟨hdk, hwfl⟩ := spineWF_mapV.mp hwf
          rw [spineWFFields_cons] at hwfl
          obtain ⟨hwv, hwrest⟩ := hwfl
          simp only [List.map_cons, distinctKeys, Bool.and_eq_true,
            decide_eq_true_eq] at hdk
          obtain ⟨hknotin, hdrest⟩ := hdk
          have hwfrest : spineWF (Value.mapV rest) = true :=
            spineWF_mapV.mpr ⟨hdrest, hwrest⟩
          have hszrest : sizeOf rest ≤ n := by
            have h1 : sizeOf ((k, v) :: rest) = 1 + (1 + sizeOf k + sizeOf v) + sizeOf rest := by
              simp
            have h2 : 0 < sizeOf v := by cases v <;> simp
            omega
          cases q with
          | nil =>
              apply iff_of_false
              · intro h; exact extract_ne_nil_mem _ _ h rfl
              · rintro ⟨hne, -⟩; exact hne rfl
          | cons b q' =>
              have hnotrest : ∀ q2, (k : String) :: q2 ∉ ExtractFieldMask rest := by
                intro q2 hmem
                obtain ⟨k2, q3, heq, hk2⟩ := extract_head_mem_keys rest _ hmem
                obtain ⟨hk2eq, -⟩ := List.cons.inj heq
                exact hknotin (hk2eq ▸ hk2)
              by_cases hb : b = k
              · rw [hb]
                have hget : getValue (Value.mapV ((k, v) :: rest)) (k :: q') =
                    getValue v q' := by simp [getValue, FindMapEntry]
                rw [hget]
                simp only [ne_eq, List.cons_ne_nil, not_false_eq_true, true_and]
                cases v with
                | mapV sub =>
                    have hszsub : sizeOf sub ≤ n := by
                      have h1 : sizeOf ((k, Value.mapV sub) :: rest) =
                          1 + (1 + sizeOf k + (1 + sizeOf sub)) + sizeOf rest := by simp
                      omega
                    by_cases hz : ExtractFieldMask sub = []
                    · have hsubnil : sub = [] := (extract_eq_nil_iff sub).mp hz
                      simp only [ExtractFieldMask, if_pos hz, List.mem_append,
                        List.mem_singleton]
                      cases q' with
                      | nil =>
                          apply iff_of_true
                          · exact Or.inl rfl
                          · exact ⟨Value.mapV sub, rfl, by simp [maskLeaf, hsubnil]⟩
                      | cons c q'' =>
                          apply iff_of_false
                          · rintro (h | h)
                            · simp at h
                            · exact hnotrest _ h
                          · rintro ⟨w, hw, -⟩
                            rw [show getValue (Value.mapV sub) (c :: q'') = none by
                              simp [hsubnil, getValue, FindMapEntry]] at hw
                            simp at hw
                    · simp only [ExtractFieldMask, if_neg hz, List.mem_append]
                      constructor
                      · rintro (h | h)
                        · obtain ⟨p, hp, hpe⟩ := List.mem_map.mp h
                          obtain ⟨-, hq'⟩ := List.cons.inj hpe
                          obtain ⟨-, w, hw, hml⟩ := (ih sub hszsub hwv p).mp hp
                          exact ⟨w, hq' ▸ hw, hml⟩
                        · exact absurd h (hnotrest _)
                      · rintro ⟨w, hw, hml⟩
                        left
                        refine List.mem_map.mpr ⟨q', ?_, rfl⟩
                        refine (ih sub hszsub hwv q').mpr ⟨?_, w, hw, hml⟩
                        intro hq'nil
                        subst hq'nil
                        simp only [getValue, Option.some.injEq] at hw
                        subst hw
                        simp only [maskLeaf] at hml
                        exact hz ((extract_eq_nil_iff sub).mpr (List.isEmpty_iff.mp hml))
                | nullV =>
                    simp only [ExtractFieldMask, List.mem_cons]
                    cases q' with
                    | nil =>
                        apply iff_of_true
                        · exact Or.inl rfl
                        · exact ⟨Value.nullV, rfl, rfl⟩
                    | cons c q'' =>
                        apply iff_of_false
                        · rintro (h | h)
                          · simp at h
                          · exact hnotrest _ h
                        · rintro ⟨w, hw, -⟩; simp [getValue] at hw
                | boolV bb =>
                    simp only [ExtractFieldMask, List.mem_cons]
                    cases q' with
                    | nil =>
                        apply iff_of_true
                        · exact Or.inl rfl
                        · exact ⟨Value.boolV bb, rfl, rfl⟩
                    | cons c q'' =>
                        apply iff_of_false
                        · rintro (h | h)
                          · simp at h
                          · exact hnotrest _ h
                        · rintro ⟨w, hw, -⟩; simp [getValue] at hw
                | intV nn =>
                    simp only [ExtractFieldMask, List.mem_cons]
                    cases q' with
                    | nil =>
                        apply iff_of_true
                        · exact Or.inl rfl
                        · exact ⟨Value.intV nn, rfl, rfl⟩
                    | cons c q'' =>
                        apply iff_of_false
                        · rintro (h | h)
                          · simp at h
                          · exact hnotrest _ h
                        · rintro ⟨w, hw, -⟩; simp [getValue] at hw
                | strV s =>
                    simp only [ExtractFieldMask, List.mem_cons]
                    cases q' with
                    | nil =>
                        apply iff_of_true
                        · exact Or.inl rfl
                        · exact ⟨Value.strV s, rfl, rfl⟩
                    | cons c q'' =>
                        apply iff_of_false
                        · rintro (h | h)
                          · simp at h
                          · exact hnotrest _ h
                        · rintro ⟨w, hw, -⟩; simp [getValue] at hw
                | arrV xs =>
                    simp only [ExtractFieldMask, List.mem_cons]
                    cases q' with
                    | nil =>
                        apply iff_of_true
                        · exact Or.inl rfl
                        · exact ⟨Value.arrV xs, rfl, rfl⟩
                    | cons c q'' =>
                        apply iff_of_false
                        · rintro (h | h)
                          · simp at h
                          · exact hnotrest _ h
                        · rintro ⟨w, hw, -⟩; simp [getValue] at hw
              · have hget : getValue (Value.mapV ((k, v) :: rest)) (b :: q') =
                    getValue (Value.mapV rest) (b :: q') := by
                  have hkb : ¬(k = b) := fun h => hb h.symm
                  simp [getValue, FindMapEntry, hkb]
                rw [hget, ← ih rest hszrest hwfrest (b :: q')]
                cases v with
                | mapV sub =>
                    simp only [ExtractFieldMask, List.mem_append]
                    constructor
                    · rintro (h | h)
                      · exfalso
                        by_cases hz : ExtractFieldMask sub = []
                        · rw [if_pos hz] at h
                          simp only [List.mem_singleton] at h
                          exact hb (List.cons.inj h).1
                        · rw [if_neg hz] at h
                          obtain ⟨p, -, hpe⟩ := List.mem_map.mp h
                          exact hb (List.cons.inj hpe.symm).1
                      · exact h
                    · exact fun h => Or.inr h
                | nullV =>
                    simp only [ExtractFieldMask, List.mem_cons]
                    constructor
                    · rintro (h | h)
                      · exact absurd (List.cons.inj h).1 hb
                      · exact h
                    · exact fun h => Or.inr h
                | boolV bb =>
                    simp only [ExtractFieldMask, List.mem_cons]
                    constructor
                    · rintro (h | h)
                      · exact absurd (List.cons.inj h).1 hb
                      · exact h
                    · exact fun h => Or.inr h
                | intV nn =>
                    simp only [ExtractFieldMask, List.mem_cons]
                    constructor
                    · rintro (h | h)
                      · exact absurd (List.cons.inj h).1 hb
                      · exact h
                    · exact fun h => Or.inr h
                | strV s =>
                    simp only [ExtractFieldMask, List.mem_cons]
                    constructor
                    · rintro (h | h)
                      · exact absurd (List.cons.inj h).1 hb
                      · exact h
                    · exact fun h => Or.inr h
                | arrV xs =>
                    simp only [ExtractFieldMask, List.mem_cons]
                    constructor
                    · rintro (h | h)
                      · exact absurd (List.cons.inj h).1 hb
                      · exact h
                    · exact fun h => Or.inr h

theorem mem_extract_iff (fields : Tree) (hwf : spineWF (Value.mapV fields) = true)
    (q : List String) :
    q ∈ ExtractFieldMask fields ↔
      (q ≠ [] ∧ ∃ v, getValue (Value.mapV fields) q = some v ∧ maskLeaf v = true) :=
  mem_extract_iff_aux (sizeOf fields) fields (le_refl _) hwf q

/-- Test harness for the mask round trip: build a tree from `t` by
`Set`-ting every path of the mask in order with the leaf chosen by `f`
(via the public `Set`, so an empty path aborts the build). -/
def buildTree (f : List String → Value) : List (List String) → Tree → Option Tree
  | [], t => some t
  | p :: rest, t =>
      match Set t p (f p) with
      | some t2 => buildTree f rest t2
      | none => none

theorem pathsDisjoint_symm {p q : List String} (h : PathsDisjoint p q) :
    PathsDisjoint q p := ⟨h.2, h.1⟩

theorem pathsDisjoint_of_head_ne {a b : String} {p q : List String} (h : a ≠ b) :
    PathsDisjoint (a :: p) (b :: q) := by
  constructor
  · simp [leadsTo, h]
  · simp [leadsTo, Ne.symm h]

theorem path_trichotomy : ∀ (p q : List String),
    p = q ∨ (∃ r, r ≠ [] ∧ q = p ++ r) ∨ (∃ r, r ≠ [] ∧ p = q ++ r) ∨
      PathsDisjoint p q := by
  intro p
  induction p with
  | nil =>
      intro q
      cases q with
      | nil => exact Or.inl rfl
      | cons b q' => exact Or.inr (Or.inl ⟨b :: q', by simp, rfl⟩)
  | cons a p' ih =>
      intro q
      cases q with
      | nil => exact Or.inr (Or.inr (Or.inl ⟨a :: p', by simp, rfl⟩))
      | cons b q' =>
          by_cases hab : a = b
          · subst hab
            rcases ih q' with h | ⟨r, hr, hqr⟩ | ⟨r, hr, hpr⟩ | hd
            · exact Or.inl (by rw [h])
            · exact Or.inr (Or.inl ⟨r, hr, by rw [hqr]; rfl⟩)
            · exact Or.inr (Or.inr (Or.inl ⟨r, hr, by rw [hpr]; rfl⟩))
            · refine Or.inr (Or.inr (Or.inr ⟨?_, ?_⟩))
              · rw [leadsTo_cons_cons]; exact hd.1
              · rw [leadsTo_cons_cons]; exact hd.2
          · exact Or.inr (Or.inr (Or.inr (pathsDisjoint_of_head_ne hab)))

theorem goodStep (seg : String) (rest : List String) (t : Tree) (w : Value)
    (hw : isMap w = false) :
    ∀ q u, q ≠ [] → getValue (Value.mapV (setPath t seg rest w)) q = some u →
      maskLeaf u = true →
      q = seg :: rest ∨ getValue (Value.mapV t) q = some u := by
  intro q u hq hget hml
  rcases path_trichotomy (seg :: rest) q with heq | ⟨r, hr, hqe⟩ | ⟨r, hr, hpe⟩ | hdisj
  · exact Or.inl heq.symm
  · exfalso
    rw [hqe, show ((seg :: rest) ++ r : List String) = seg :: (rest ++ r) from rfl,
      getValue_setPath_append, getValue_not_map hw hr] at hget
    simp at hget
  · exfalso
    obtain ⟨sub, hsub, hnn⟩ := getValue_setPath_ancestor q r rest seg t w hpe hq hr
    rw [hget, Option.some.injEq] at hsub
    rw [hsub] at hml
    simp only [maskLeaf, List.isEmpty_iff] at hml
    exact hnn hml
  · rw [getValue_setPath_disjoint rest seg q t w hdisj] at hget
    exact Or.inr hget

theorem buildTree_good :
    ∀ (M : List (List String)) (t : Tree) (f : List String → Value)
      (S : List (List String)) (r : Tree),
      (∀ p ∈ M, isMap (f p) = false) →
      (∀ q u, q ≠ [] → getValue (Value.mapV t) q = some u → maskLeaf u = true → q ∈ S) →
      buildTree f M t = some r →
      ∀ q u, q ≠ [] → getValue (Value.mapV r) q = some u → maskLeaf u = true →
        q ∈ S ∨ q ∈ M := by
  intro M
  induction M with
  | nil =>
      intro t f S r hnm hgood hb q u hq hget hml
      simp only [buildTree, Option.some.injEq] at hb
      subst hb
      exact Or.inl (hgood q u hq hget hml)
  | cons p rest ih =>
      intro t f S r hnm hgood hb q u hq hget hml
      cases p with
      | nil => simp [buildTree, Set] at hb
      | cons seg rest' =>
          simp only [buildTree, Set] at hb
          have hgood2 : ∀ q2 u2, q2 ≠ [] →
              getValue (Value.mapV (setPath t seg rest' (f (seg :: rest')))) q2 = some u2 →
              maskLeaf u2 = true → q2 ∈ (seg :: rest') :: S := by
            intro q2 u2 hq2 hget2 hml2
            rcases goodStep seg rest' t (f (seg :: rest'))
                (hnm _ (by simp)) q2 u2 hq2 hget2 hml2 with h | h
            · exact List.mem_cons.mpr (Or.inl h)
            · exact List.mem_cons.mpr (Or.inr (hgood q2 u2 hq2 h hml2))
          rcases ih _ f ((seg :: rest') :: S) r
              (fun p hp => hnm p (by simp [hp])) hgood2 hb q u hq hget hml with h | h
          · rcases List.mem_cons.mp h with h1 | h1
            · exact Or.inr (by simp [h1])
            · exact Or.inl h1
          · exact Or.inr (by simp [h])

theorem buildTree_frame :
    ∀ (M : List (List String)) (t : Tree) (f : List String → Value) (r : Tree)
      (q : List String),
      (∀ p ∈ M, PathsDisjoint p q) →
      buildTree f M t = some r →
      getValue (Value.mapV r) q = getValue (Value.mapV t) q := by
  intro M
  induction M with
  | nil =>
      intro t f r q _ hb
      simp only [buildTree, Option.some.injEq] at hb
      subst hb; rfl
  | cons p rest ih =>
      intro t f r q hd hb
      cases p with
      | nil => simp [buildTree, Set] at hb
      | cons seg rest' =>
          simp only [buildTree, Set] at hb
          rw [ih _ f r q (fun p hp => hd p (by simp [hp])) hb]
          exact getValue_setPath_disjoint rest' seg q t _ (hd _ (by simp))

theorem buildTree_get_mem :
    ∀ (M : List (List String)) (t : Tree) (f : List String → Value) (r : Tree)
      (q : List String),
      List.Pairwise PathsDisjoint M →
      buildTree f M t = some r → q ∈ M →
      getValue (Value.mapV r) q = some (f q) := by
  intro M
  induction M with
  | nil => intro t f r q _ _ hm; simp at hm
  | cons p rest ih =>
      intro t f r q hpw hb hm
      cases p with
      | nil => simp [buildTree, Set] at hb
      | cons seg rest' =>
          simp only [buildTree, Set] at hb
          rcases List.mem_cons.mp hm with h | h
          · subst h
            rw [buildTree_frame rest _ f r (seg :: rest')
                (fun p hp => pathsDisjoint_symm ((List.pairwise_cons.mp hpw).1 p hp)) hb]
            exact getValue_setPath_self rest' t seg (f (seg :: rest'))
          · exact ih _ f r q (List.pairwise_cons.mp hpw).2 hb h

theorem buildTree_isSome :
    ∀ (M : List (List String)) (t : Tree) (f : List String → Value),
      (∀ p ∈ M, p ≠ []) → ∃ r, buildTree f M t = some r := by
  intro M
  induction M with
  | nil => intro t f _; exact ⟨t, rfl⟩
  | cons p rest ih =>
      intro t f hne
      cases p with
      | nil => exact absurd rfl (hne [] (by simp))
      | cons seg rest' =>
          simp only [buildTree, Set]
          exact ih _ f (fun p hp => hne p (by simp [hp]))

theorem buildTree_wf :
    ∀ (M : List (List String)) (t : Tree) (f : List String → Value) (r : Tree),
      spineWF (Value.mapV t) = true →
      (∀ p ∈ M, isMap (f p) = false) →
      buildTree f M t = some r → spineWF (Value.mapV r) = true := by
  intro M
  induction M with
  | nil =>
      intro t f r hwf _ hb
      simp only [buildTree, Option.some.injEq] at hb
      subst hb; exact hwf
  | cons p rest ih =>
      intro t f r hwf hnm hb
      cases p with
      | nil => simp [buildTree, Set] at hb
      | cons seg rest' =>
          simp only [buildTree, Set] at hb
          refine ih _ f r ?_ (fun p hp => hnm p (by simp [hp])) hb
          exact spineWF_setPath rest' t seg _ hwf
            (spineWF_not_map (hnm _ (by simp)))

theorem spineWF_SetAll :
    ∀ (mask : List (List String)) (src t r : Tree),
      spineWF (Value.mapV t) = true → spineWF (Value.mapV src) = true →
      SetAll mask src t = some r → spineWF (Value.mapV r) = true := by
  intro mask
  induction mask with
  | nil =>
      intro src t r hwt _ hs
      simp only [SetAll, Option.some.injEq] at hs
      subst hs; exact hwt
  | cons p rest ih =>
      intro src t r hwt hws hs
      simp only [SetAll] at hs
      cases hg : Get src p with
      | some v =>
          rw [hg] at hs
          cases p with
          | nil => simp [Set] at hs
          | cons seg rest' =>
              simp only [Set] at hs
              exact ih src _ r
                (spineWF_setPath rest' t seg v hwt (spineWF_getValue _ _ hws v hg)) hws hs
      | none =>
          rw [hg] at hs
          cases p with
          | nil => simp [Delete] at hs
          | cons seg rest' =>
              simp only [Delete] at hs
              exact ih src _ r (spineWF_deletePath rest' t seg hwt) hws hs

/-- The spec's description of one step of the sparse-patch loop: look the
path up in the source tree; a present path is `Set`, an absent one is
`Delete`d. -/
def patchStep (src : Tree) (t : Tree) (p : List String) : Option Tree :=
  match Get src p with
  | some v => Set t p v
  | none => Delete t p

theorem setAll_eq_foldlM :
    ∀ (mask : List (List String)) (src t : Tree),
      SetAll mask src t = List.foldlM (patchStep src) t mask := by
  intro mask
  induction mask with
  | nil => intro src t; rfl
  | cons p rest ih =>
      intro src t
      rw [List.foldlM_cons]
      simp only [SetAll, patchStep]
      cases Get src p with
      | some v =>
          cases hs : Set t p v with
          | some t2 => simp [hs, ih]
          | none => simp [hs]
      | none =>
          cases hs : Delete t p with
          | some t2 => simp [hs, ih]
          | none => simp [hs]

theorem setAll_frame :
    ∀ (mask : List (List String)) (src t r : Tree) (q : List String),
      (∀ p ∈ mask, PathsDisjoint p q) →
      SetAll mask src t = some r →
      Get r q = Get t q := by
  intro mask
  induction mask with
  | nil =>
      intro src t r q _ hs
      simp only [SetAll, Option.some.injEq] at hs
      subst hs; rfl
  | cons p rest ih =>
      intro src t r q hd hs
      simp only [SetAll] at hs
      cases hg : Get src p with
      | some v =>
          rw [hg] at hs
          cases p with
          | nil => simp [Set] at hs
          | cons seg rest' =>
              simp only [Set] at hs
              rw [ih src _ r q (fun p hp => hd p (by simp [hp])) hs]
              exact getValue_setPath_disjoint rest' seg q t v (hd _ (by simp))
      | none =>
          rw [hg] at hs
          cases p with
          | nil => simp [Delete] at hs
          | cons seg rest' =>
              simp only [Delete] at hs
              rw [ih src _ r q (fun p hp => hd p (by simp [hp])) hs]
              exact getValue_deletePath_disjoint rest' seg q t (hd _ (by simp))

/-- Claim C1: for every non-empty field path `p` and every value `v`, calling
`Set(p, v)` and then `Get(p)` on the same tree returns a value equal to
`v` (content equality is structural equality of the modelled union). -/
theorem claim1_set_then_get (t : Tree) (path : List String) (v : Value)
    (h : path ≠ []) :
    ∃ r, Set t path v = some r ∧ Get r path = some v := by
  cases path with
  | nil => exact absurd rfl h
  | cons seg rest =>
      exact ⟨setPath t seg rest v, rfl, getValue_setPath_self rest t seg v⟩

theorem claim1_witness :
    (["a", "b"] : List String) ≠ [] ∧
    ∃ r, Set [] ["a", "b"] (Value.intV 7) = some r ∧
      Get r ["a", "b"] = some (Value.intV 7) :=
  ⟨by decide, claim1_set_then_get [] ["a", "b"] (Value.intV 7) (by decide)⟩

/-- Claim C2: during `Set`'s descent, an existing non-map entry is replaced in
place by a freshly emptied map before descending; consequently after
`Set(["a"], scalar)` then `Set(["a","b"], v2)` the field `a` is a map
containing exactly `{b: v2}`, `Get(["a","b"])` returns `v2`, and
`Get(["a","c"])` is absent. -/
theorem claim2_set_through_scalar :
    (∀ (t : Tree) (seg next : String) (rest : List String) (v : Value)
        (e : String × Value),
        FindMapEntry t seg = some e → isMap e.2 = false →
        setPath t seg (next :: rest) v =
          replaceFirstValue t seg (Value.mapV (setPath [] next rest v))) ∧
    (∀ s v2 : Value, isMap s = false →
      ∃ t1 t2, Set [] ["a"] s = some t1 ∧ Set t1 ["a", "b"] v2 = some t2 ∧
        t2 = [("a", Value.mapV [("b", v2)])] ∧
        Get t2 ["a", "b"] = some v2 ∧ Get t2 ["a", "c"] = none) := by
  constructor
  · intro t seg next rest v e hf he
    simp only [setPath, hf]
    obtain ⟨ek, ev⟩ := e
    cases ev with
    | mapV sub => simp [isMap] at he
    | nullV => rfl
    | boolV b => rfl
    | intV n => rfl
    | strV s => rfl
    | arrV xs => rfl
  · intro s v2 hs
    refine ⟨[("a", s)], [("a", Value.mapV [("b", v2)])], rfl, ?_, rfl, ?_, ?_⟩
    · cases s with
      | mapV sub => simp [isMap] at hs
      | nullV => simp [Set, setPath, FindMapEntry, replaceFirstValue]
      | boolV b => simp [Set, setPath, FindMapEntry, replaceFirstValue]
      | intV n => simp [Set, setPath, FindMapEntry, replaceFirstValue]
      | strV str => simp [Set, setPath, FindMapEntry, replaceFirstValue]
      | arrV xs => simp [Set, setPath, FindMapEntry, replaceFirstValue]
    · simp [Get, getValue, FindMapEntry]
    · simp [Get, getValue, FindMapEntry]

theorem claim2_witness :
    isMap (Value.intV 1) = false ∧
    (∃ t1 t2, Set [] ["a"] (Value.intV 1) = some t1 ∧
      Set t1 ["a", "b"] (Value.intV 2) = some t2 ∧
      t2 = [("a", Value.mapV [("b", Value.intV 2)])] ∧
      Get t2 ["a", "b"] = some (Value.intV 2) ∧ Get t2 ["a", "c"] = none) :=
  ⟨rfl, claim2_set_through_scalar.2 (Value.intV 1) (Value.intV 2) rfl⟩

/-- Claim C3: `Get` with an empty path returns the root value unchanged (never
absent), while `Set` and `Delete` with an empty path hit the fatal
precondition (`none`) before any mutation is observable. -/
theorem claim3_empty_path (t : Tree) (v : Value) :
    Get t [] = some (Value.mapV t) ∧ Set t [] v = none ∧ Delete t [] = none :=
  ⟨rfl, rfl, rfl⟩

/-- Claim C6: deleting a path of at least two segments whose entry exists
removes only the last-segment entry: the parent stays present as a map
(the removal of the entry, nothing else); in particular after
`Set(["a","b"], v)` then `Delete(["a","b"])`, `Get(["a"])` returns a
map-typed value with zero entries, not absent. -/
theorem claim6_delete_keeps_parent :
    (∀ (t : Tree) (q2 : List String) (a lastSeg : String),
      (Get t ((a :: q2) ++ [lastSeg])).isSome = true →
      ∃ sub r, Get t (a :: q2) = some (Value.mapV sub) ∧
        Delete t ((a :: q2) ++ [lastSeg]) = some r ∧
        Get r (a :: q2) = some (Value.mapV (removeFirst sub lastSeg))) ∧
    (∀ v : Value,
      ∃ t1 r, Set [] ["a", "b"] v = some t1 ∧ Delete t1 ["a", "b"] = some r ∧
        Get r ["a"] = some (Value.mapV [])) := by
  constructor
  · intro t q2 a lastSeg hsome
    obtain ⟨sub, h1, h2⟩ := getValue_deletePath_parent q2 a lastSeg t hsome
    exact ⟨sub, deletePath t a (q2 ++ [lastSeg]), h1, rfl, h2⟩
  · intro v
    refine ⟨[("a", Value.mapV [("b", v)])], [("a", Value.mapV [])], rfl, ?_, ?_⟩
    · simp [Delete, deletePath, FindMapEntry, removeFirst, replaceFirstValue]
    · simp [Get, getValue, FindMapEntry]

theorem claim6_witness :
    (Get [("a", Value.mapV [("b", Value.intV 5)])] (("a" :: []) ++ ["b"])).isSome = true ∧
    (∃ sub r,
      Get [("a", Value.mapV [("b", Value.intV 5)])] ("a" :: []) = some (Value.mapV sub) ∧
      Delete [("a", Value.mapV [("b", Value.intV 5)])] (("a" :: []) ++ ["b"]) = some r ∧
      Get r ("a" :: []) = some (Value.mapV (removeFirst sub "b"))) :=
  ⟨rfl, claim6_delete_keeps_parent.1 [("a", Value.mapV [("b", Value.intV 5)])] [] "a" "b" rfl⟩

/-- Claim C7: `IsServerTimestamp(v)` is true iff `v` is map-typed with at most
3 entries one of which is keyed `"__type__"` with string value
`"server_timestamp"` (on a map with pairwise-distinct keys, the data
model invariant); in particular it is false for any non-map value and for
any map with more than 3 entries regardless of content. -/
theorem claim7_isServerTimestamp_iff :
    (∀ (v : Value) (fields : Tree), v = Value.mapV fields →
        distinctKeys (fields.map Prod.fst) = true →
        (IsServerTimestamp v = true ↔
          fields.length ≤ 3 ∧ ∃ e ∈ fields, e.1 = kTypeKey ∧
            e.2 = Value.strV kServerTimestampSentinel)) ∧
    (∀ v, isMap v = false → IsServerTimestamp v = false) ∧
    (∀ fields : Tree, 3 < fields.length →
        IsServerTimestamp (Value.mapV fields) = false) := by
  refine ⟨?_, ?_, ?_⟩
  · intro v fields hv hd
    subst hv
    simp only [IsServerTimestamp]
    by_cases hlen : 3 < fields.length
    · rw [if_pos hlen]
      apply iff_of_false (by simp)
      rintro ⟨hle, -⟩
      omega
    · rw [if_neg hlen]
      cases hf : FindMapEntry fields kTypeKey with
      | none =>
          apply iff_of_false (by simp)
          rintro ⟨-, e, hm, hk, -⟩
          exact (findMapEntry_eq_none.mp hf e hm) hk
      | some e =>
          obtain ⟨hk, hm⟩ := findMapEntry_some hf
          obtain ⟨ek, ev⟩ := e
          cases ev with
          | strV s =>
              simp only [decide_eq_true_eq]
              constructor
              · intro hs
                refine ⟨by omega, (ek, Value.strV s), hm, hk, by rw [hs]⟩
              · rintro ⟨-, e', hm', hk', hv'⟩
                have he' : e' = (kTypeKey, Value.strV kServerTimestampSentinel) := by
                  obtain ⟨a, b⟩ := e'
                  simp only at hk' hv'
                  rw [hk', hv']
                rw [he'] at hm'
                have := findMapEntry_of_mem_distinct hd hm'
                rw [hf] at this
                simp only [Option.some.injEq, Prod.mk.injEq] at this
                exact Value.strV.inj this.2
          | mapV sub =>
              apply iff_of_false (by simp)
              rintro ⟨-, e', hm', hk', hv'⟩
              have he' : e' = (kTypeKey, Value.strV kServerTimestampSentinel) := by
                obtain ⟨a, b⟩ := e'
                simp only at hk' hv'
                rw [hk', hv']
              rw [he'] at hm'
              have := findMapEntry_of_mem_distinct hd hm'
              rw [hf] at this
              simp at this
          | nullV =>
              apply iff_of_false (by simp)
              rintro ⟨-, e', hm', hk', hv'⟩
              have he' : e' = (kTypeKey, Value.strV kServerTimestampSentinel) := by
                obtain ⟨a, b⟩ := e'
                simp only at hk' hv'
                rw [hk', hv']
              rw [he'] at hm'
              have := findMapEntry_of_mem_distinct hd hm'
              rw [hf] at this
              simp at this
          | boolV b =>
              apply iff_of_false (by simp)
              rintro ⟨-, e', hm', hk', hv'⟩
              have he' : e' = (kTypeKey, Value.strV kServerTimestampSentinel) := by
                obtain ⟨a, b⟩ := e'
                simp only at hk' hv'
                rw [hk', hv']
              rw [he'] at hm'
              have := findMapEntry_of_mem_distinct hd hm'
              rw [hf] at this
              simp at this
          | intV n =>
              apply iff_of_false (by simp)
              rintro ⟨-, e', hm', hk', hv'⟩
              have he' : e' = (kTypeKey, Value.strV kServerTimestampSentinel) := by
                obtain ⟨a, b⟩ := e'
                simp only at hk' hv'
                rw [hk', hv']
              rw [he'] at hm'
              have := findMapEntry_of_mem_distinct hd hm'
              rw [hf] at this
              simp at this
          | arrV xs =>
              apply iff_of_false (by simp)
              rintro ⟨-, e', hm', hk', hv'⟩
              have he' : e' = (kTypeKey, Value.strV kServerTimestampSentinel) := by
                obtain ⟨a, b⟩ := e'
                simp only at hk' hv'
                rw [hk', hv']
              rw [he'] at hm'
              have := findMapEntry_of_mem_distinct hd hm'
              rw [hf] at this
              simp at this
  · intro v hv
    cases v <;> simp_all [IsServerTimestamp, isMap]
  · intro fields hlen
    simp [IsServerTimestamp, hlen]

theorem claim7_witness :
    (Value.mapV [(kTypeKey, Value.strV kServerTimestampSentinel)] =
        Value.mapV [(kTypeKey, Value.strV kServerTimestampSentinel)]) ∧
    distinctKeys ([(kTypeKey, Value.strV kServerTimestampSentinel)].map Prod.fst) = true ∧
    (IsServerTimestamp (Value.mapV [(kTypeKey, Value.strV kServerTimestampSentinel)]) = true ↔
      [(kTypeKey, Value.strV kServerTimestampSentinel)].length ≤ 3 ∧
        ∃ e ∈ [(kTypeKey, Value.strV kServerTimestampSentinel)], e.1 = kTypeKey ∧
          e.2 = Value.strV kServerTimestampSentinel) :=
  ⟨rfl, rfl,
    claim7_isServerTimestamp_iff.1 _ [(kTypeKey, Value.strV kServerTimestampSentinel)] rfl rfl⟩

/-- Claim C8: on a map value, `GetLocalWriteTime` returns the value of the
entry keyed `"__local_write_time__"` when one exists (keys being
pairwise distinct per the data model invariant), and hits its fatal
failure (`none`) exactly when no such entry exists. -/
theorem claim8_getLocalWriteTime (fields : Tree)
    (hd : distinctKeys (fields.map Prod.fst) = true) :
    (∀ w, (kLocalWriteTimeKey, w) ∈ fields →
        GetLocalWriteTime (Value.mapV fields) = some w) ∧
    (GetLocalWriteTime (Value.mapV fields) = none ↔
      ∀ e ∈ fields, e.1 ≠ kLocalWriteTimeKey) := by
  constructor
  · intro w hm
    simp [GetLocalWriteTime, findMapEntry_of_mem_distinct hd hm]
  · simp only [GetLocalWriteTime]
    cases hf : FindMapEntry fields kLocalWriteTimeKey with
    | none => exact iff_of_true rfl (findMapEntry_eq_none.mp hf)
    | some e =>
        apply iff_of_false (by simp)
        intro hall
        exact hall e (findMapEntry_some hf).2 (findMapEntry_some hf).1

theorem claim8_witness :
    distinctKeys ([(kLocalWriteTimeKey, Value.intV 3)].map Prod.fst) = true ∧
    (∀ w, (kLocalWriteTimeKey, w) ∈ [(kLocalWriteTimeKey, Value.intV 3)] →
        GetLocalWriteTime (Value.mapV [(kLocalWriteTimeKey, Value.intV 3)]) = some w) ∧
    (GetLocalWriteTime (Value.mapV [(kLocalWriteTimeKey, Value.intV 3)]) = none ↔
      ∀ e ∈ [(kLocalWriteTimeKey, Value.intV 3)], e.1 ≠ kLocalWriteTimeKey) :=
  ⟨rfl, claim8_getLocalWriteTime [(kLocalWriteTimeKey, Value.intV 3)] rfl⟩

/-- Claim C9: every mutating operation (`Set`, `Delete`, `SetAll`) preserves
the invariant that within each map node reachable through map entries the
keys are pairwise distinct (for values being inserted, given they satisfy
it themselves); in particular `Set` leaves one entry per distinct key at
every level it touches. -/
theorem claim9_mutations_preserve_distinct_keys :
    (∀ (t : Tree) (path : List String) (v : Value) (r : Tree),
        spineWF (Value.mapV t) = true → spineWF v = true →
        Set t path v = some r → spineWF (Value.mapV r) = true) ∧
    (∀ (t : Tree) (path : List String) (r : Tree),
        spineWF (Value.mapV t) = true →
        Delete t path = some r → spineWF (Value.mapV r) = true) ∧
    (∀ (mask : List (List String)) (src t r : Tree),
        spineWF (Value.mapV t) = true → spineWF (Value.mapV src) = true →
        SetAll mask src t = some r → spineWF (Value.mapV r) = true) := by
  refine ⟨?_, ?_, fun mask src t r hwt hws hs => spineWF_SetAll mask src t r hwt hws hs⟩
  · intro t path v r hwt hwv hs
    cases path with
    | nil => simp [Set] at hs
    | cons seg rest =>
        simp only [Set, Option.some.injEq] at hs
        subst hs
        exact spineWF_setPath rest t seg v hwt hwv
  · intro t path r hwt hs
    cases path with
    | nil => simp [Delete] at hs
    | cons seg rest =>
        simp only [Delete, Option.some.injEq] at hs
        subst hs
        exact spineWF_deletePath rest t seg hwt

theorem claim9_witness :
    (spineWF (Value.mapV ([] : Tree)) = true ∧ spineWF (Value.intV 1) = true ∧
      Set [] ["a"] (Value.intV 1) = some [("a", Value.intV 1)]) ∧
    spineWF (Value.mapV [("a", Value.intV 1)]) = true :=
  ⟨⟨by simp [spineWF, distinctKeys, spineWFFields], by simp [spineWF], rfl⟩,
    claim9_mutations_preserve_distinct_keys.1 [] ["a"] (Value.intV 1)
      [("a", Value.intV 1)] (by simp [spineWF, distinctKeys, spineWFFields])
      (by simp [spineWF]) rfl⟩

/-- Claim C10: a sentinel can lack the companion entry: for the map whose only
entry is `"__type__" ↦ "server_timestamp"`, `IsServerTimestamp` is true
yet `GetLocalWriteTime` reaches its fatal-failure branch. -/
theorem claim10_sentinel_without_time :
    IsServerTimestamp (Value.mapV [(kTypeKey, Value.strV kServerTimestampSentinel)]) = true ∧
    GetLocalWriteTime (Value.mapV [(kTypeKey, Value.strV kServerTimestampSentinel)]) = none :=
  ⟨rfl, rfl⟩

/-- Claim C4 fails as stated: for the mask `{["a"], ["a","b"]}` (a path and
its prefix, which a `FieldMask` may contain), building the tree by
`Set`-ting both paths with non-map leaves and extracting the mask yields
only `["a","b"]` — the path `["a"]` of the mask is lost. -/
theorem claim4_counterexample :
    buildTree (fun _ => Value.intV 1) [["a"], ["a", "b"]] [] =
      some [("a", Value.mapV [("b", Value.intV 1)])] ∧
    ExtractFieldMask [("a", Value.mapV [("b", Value.intV 1)])] = [["a", "b"]] ∧
    (["a"] : List String) ∈ [["a"], ["a", "b"]] ∧
    (["a"] : List String) ∉ ExtractFieldMask [("a", Value.mapV [("b", Value.intV 1)])] := by
  have hex : ExtractFieldMask [("a", Value.mapV [("b", Value.intV 1)])] = [["a", "b"]] := by
    simp [ExtractFieldMask]
  refine ⟨rfl, hex, by simp, ?_⟩
  rw [hex]
  simp

/-- Claim C4 (amended): for every prefix-free field mask M — no two distinct
paths of M with one an initial segment of the other, hence pairwise
disjoint — with non-empty paths and arbitrary non-map leaf values,
building a tree from empty by `Set`-ting every path of M and then
extracting the field mask yields exactly the set of paths M. -/
theorem claim4_amended (M : List (List String)) (f : List String → Value)
    (hpw : List.Pairwise PathsDisjoint M)
    (hne : ∀ p ∈ M, p ≠ [])
    (hnm : ∀ p ∈ M, isMap (f p) = false) :
    ∃ r, buildTree f M [] = some r ∧
      ∀ q, q ∈ ExtractFieldMask r ↔ q ∈ M := by
  obtain ⟨r, hr⟩ := buildTree_isSome M [] f hne
  refine ⟨r, hr, fun q => ?_⟩
  have hwfr : spineWF (Value.mapV r) = true :=
    buildTree_wf M [] f r spineWF_map_nil hnm hr
  rw [mem_extract_iff r hwfr q]
  constructor
  · rintro ⟨hq, u, hget, hml⟩
    have hgoodnil : ∀ q2 u2, q2 ≠ [] →
        getValue (Value.mapV ([] : Tree)) q2 = some u2 → maskLeaf u2 = true →
        q2 ∈ ([] : List (List String)) := by
      intro q2 u2 hq2 hget2 _
      rw [getValue_map_nil hq2] at hget2
      exact absurd hget2 (by simp)
    rcases buildTree_good M [] f [] r hnm hgoodnil hr q u hq hget hml with h | h
    · simp at h
    · exact h
  · intro hq
    exact ⟨hne q hq, f q, buildTree_get_mem M [] f r q hpw hr hq,
      maskLeaf_not_map (hnm q hq)⟩

theorem claim4_witness :
    (List.Pairwise PathsDisjoint [["a"], ["b", "c"]] ∧
      (∀ p ∈ [[("a" : String)], ["b", "c"]], p ≠ []) ∧
      (∀ p ∈ [[("a" : String)], ["b", "c"]], isMap (Value.intV 1) = false)) ∧
    (∃ r, buildTree (fun _ => Value.intV 1) [["a"], ["b", "c"]] [] = some r ∧
      ∀ q, q ∈ ExtractFieldMask r ↔ q ∈ [["a"], ["b", "c"]]) :=
  ⟨⟨by decide, by decide, by decide⟩,
    claim4_amended [["a"], ["b", "c"]] (fun _ => Value.intV 1)
      (by decide) (by decide) (by decide)⟩

/-- Claim C5 fails as stated: with mask `{["a","b"]}`, a tree where `a` is the
scalar `1` and a source where `a.b = 2`, `SetAll` rewrites the field `a`
(from the scalar to a map) even though the path `["a"]` is not in the
mask — only paths disjoint from every mask path are untouched. -/
theorem claim5_counterexample :
    SetAll [["a", "b"]] [("a", Value.mapV [("b", Value.intV 2)])]
        [("a", Value.intV 1)] = some [("a", Value.mapV [("b", Value.intV 2)])] ∧
    (["a"] : List String) ∉ [[("a" : String), "b"]] ∧
    Get [("a", Value.intV 1)] ["a"] = some (Value.intV 1) ∧
    Get [("a", Value.mapV [("b", Value.intV 2)])] ["a"] =
      some (Value.mapV [("b", Value.intV 2)]) ∧
    some (Value.intV 1) ≠ some (Value.mapV [("b", Value.intV 2)]) := by
  refine ⟨rfl, by simp, rfl, rfl, by simp⟩

/-- Claim C5 (amended): `SetAll(mask, src)` equals the loop that, for each mask
path in order, `Set`s the path when it resolves in the source and
`Delete`s it otherwise; and every field whose path is disjoint from every
mask path (neither equal to, an ancestor of, nor a descendant of any mask
path) is left untouched regardless of the source's content. -/
theorem claim5_amended :
    (∀ (mask : List (List String)) (src t : Tree),
        SetAll mask src t = List.foldlM (patchStep src) t mask) ∧
    (∀ (mask : List (List String)) (src t r : Tree) (q : List String),
        (∀ p ∈ mask, PathsDisjoint p q) →
        SetAll mask src t = some r → Get r q = Get t q) :=
  ⟨setAll_eq_foldlM, setAll_frame⟩

theorem claim5_witness :
    (∀ p ∈ [[("a" : String)]], PathsDisjoint p ["b"]) ∧
    SetAll [["a"]] [] [("b", Value.intV 1)] = some [("b", Value.intV 1)] ∧
    Get [("b", Value.intV 1)] ["b"] = Get [("b", Value.intV 1)] ["b"] :=
  ⟨by decide, rfl,
    claim5_amended.2 [["a"]] [] [("b", Value.intV 1)] [("b", Value.intV 1)]
      ["b"] (by decide) rfl⟩

end ObjectValue
